import Mathlib

/-!
Verification development for the Google-Drive-Cleanup maintenance scripts.

The duplicate-detection and folder-merge engine of the repository is embedded
shallowly: the pure string functions are translated directly, the stateful
directory operations become explicit state passing over a simple model of a
directory tree, and the console output and the single interactive prompt are
recorded as an explicit event trace so that ordering properties (plan before
confirmation before mutation) can be stated.

Sources embedded:
  scripts/deduplicate_contracts.py   (calculate_file_hash, format_size, deduplicate_folder)
  scripts/duplicate_scanner.py       (normalize_filename, format_size)
  scripts/merge_customer_folders.py  (fuzzy_group, merge_directories, main)
-/

namespace GDC

/-! ### Generic list sorting (model of the stable sort used by Python lists)

Python sorts are stable; an insertion sort that inserts an element before the
first list member that does not compare strictly earlier is stable in the same
sense, and it evaluates by kernel reduction, which the concrete witnesses use. -/

def insertLe (le : α → α → Bool) (a : α) : List α → List α
  | [] => [a]
  | b :: l => if le a b then a :: b :: l else b :: insertLe le a l

def sortLe (le : α → α → Bool) : List α → List α
  | [] => []
  | a :: l => insertLe le a (sortLe le l)

/-! ### Python string primitives -/

/-- Whitespace for the regex class used by re.sub and for str.strip; the model
covers the ASCII whitespace characters. -/
def pyIsSpace (c : Char) : Bool :=
  c = ' ' || c = '\t' || c = '\n' || c = '\r' || c = '\x0b' || c = '\x0c'

def pyStripChars (l : List Char) : List Char :=
  ((l.dropWhile pyIsSpace).reverse.dropWhile pyIsSpace).reverse

/-- Model of str.strip() with no argument: drop leading and trailing whitespace. -/
def pyStrip (s : String) : String := (pyStripChars s.data).asString

/-- Model of str.lower() (ASCII range, which is all the callers compare against). -/
def pyLower (s : String) : String := (s.data.map Char.toLower).asString

/-- Model of name.startswith(".") for a file name. -/
def startsWithDot (s : String) : Bool :=
  match s.data with
  | [] => false
  | c :: _ => c = '.'

/-- Lexicographic comparison of character lists by code point, the order Python
uses to compare strings (and hence the order of sorted on names). -/
def charsLe : List Char → List Char → Bool
  | [], _ => true
  | _ :: _, [] => false
  | a :: as, b :: bs =>
    if a.toNat < b.toNat then true
    else if b.toNat < a.toNat then false
    else charsLe as bs

def strLe (s t : String) : Bool := charsLe s.data t.data

/-- Model of sorted(group) on folder names. -/
def sortStrings (l : List String) : List String := sortLe strLe l

/-! ### Name normalizer (duplicate_scanner.normalize_filename)

The scanner calls normalize_filename(file_path.name), so the argument is a bare
file name with no directory separators; Path(filename).stem then removes the
final extension: the part after the last dot, provided that dot is neither the
first nor the last character of the name. -/

def stemChars (l : List Char) : List Char :=
  let r := l.reverse
  let ext := r.takeWhile (fun c => !(c = '.'))
  if 0 < ext.length && ext.length + 1 < r.length then (r.drop (ext.length + 1)).reverse
  else l

def pyStem (s : String) : String := (stemChars s.data).asString

/-- Reversed-suffix matcher for the first pattern removed by normalize_filename,
a whitespace run, then the word copy case-insensitively, then optional
whitespace, then an optional digit run, anchored at the end of the string.
The input is the reversed character list; on a match the reversed remainder in
front of the matched suffix is returned. -/
def matchCopyR (r : List Char) : Option (List Char) :=
  let r1 := r.dropWhile Char.isDigit
  let r2 := r1.dropWhile pyIsSpace
  match r2 with
  | c1 :: c2 :: c3 :: c4 :: rest =>
    if c1.toLower = 'y' && c2.toLower = 'p' && c3.toLower = 'o' && c4.toLower = 'c' then
      let r3 := rest.dropWhile pyIsSpace
      if r3.length < rest.length then some r3 else none
    else none
  | _ => none

def removeCopySuffix (s : String) : String :=
  match matchCopyR s.data.reverse with
  | some r => r.reverse.asString
  | none => s

/-- Reversed-suffix matcher for the second pattern, a whitespace run followed by
a parenthesized nonempty digit run, anchored at the end of the string. -/
def matchParenR : List Char → Option (List Char)
  | ')' :: r =>
    let r1 := r.dropWhile Char.isDigit
    if r1.length < r.length then
      match r1 with
      | '(' :: r2 =>
        let r3 := r2.dropWhile pyIsSpace
        if r3.length < r2.length then some r3 else none
      | _ => none
    else none
  | _ => none

def removeParenSuffix (s : String) : String :=
  match matchParenR s.data.reverse with
  | some r => r.reverse.asString
  | none => s

/-- Model of normalize_filename: take the stem, remove the trailing copy
pattern, then the trailing parenthesized-number pattern, then strip. -/
def normalize_filename (s : String) : String :=
  pyStrip (removeParenSuffix (removeCopySuffix (pyStem s)))

/-! ### Fuzzy clustering (merge_customer_folders.fuzzy_group)

The similarity scorer fuzz.ratio comes from the external rapidfuzz library, so
the clustering is embedded parametrically in the scorer. The threshold default
in the source is 80; main passes the default. -/

def tryJoin (score : String → String → ℚ) (threshold : ℚ) (name : String) :
    List (List String) → Option (List (List String))
  | [] => none
  | g :: gs =>
    if threshold ≤ score name (g.headD "") then some ((g ++ [name]) :: gs)
    else
      match tryJoin score threshold name gs with
      | some gs2 => some (g :: gs2)
      | none => none

def fuzzyInsert (score : String → String → ℚ) (threshold : ℚ)
    (gs : List (List String)) (name : String) : List (List String) :=
  match tryJoin score threshold name gs with
  | some gs2 => gs2
  | none => gs ++ [[name]]

def fuzzy_group (score : String → String → ℚ) (names : List String) (threshold : ℚ) :
    List (List String) :=
  names.foldl (fuzzyInsert score threshold) []

/-- Clustering as the spec describes it, used to state the refinement claim:
each string joins the first existing cluster whose first-inserted element
scores at least the threshold against it, and otherwise starts a new
singleton cluster at the end. -/
def fuzzyGroupSpecInsert (score : String → String → ℚ) (threshold : ℚ)
    (gs : List (List String)) (name : String) : List (List String) :=
  match gs.findIdx? (fun g => decide (threshold ≤ score name (g.headD ""))) with
  | some i => gs.modify (fun g => g ++ [name]) i
  | none => gs ++ [[name]]

def fuzzyGroupSpec (score : String → String → ℚ) (names : List String) (threshold : ℚ) :
    List (List String) :=
  names.foldl (fuzzyGroupSpecInsert score threshold) []

/-- A concrete scorer used by witnesses: 100 for identical strings, 0 otherwise.
It satisfies the property of the edit-distance ratio that only identical
strings reach the score 100. -/
def score0 : String → String → ℚ := fun a b => if a = b then 100 else 0

/-! ### Event trace

One constructor per console line or interactive step of the two mutating
scripts, plus the mutating filesystem calls themselves. -/

inductive Event where
  | errorReading (name : String)
  | groupHeader (hash : Nat) (keepName : String)
  | deletedFile (name : String)
  | errorDeleting (name : String)
  | dedupSummary (removed : Nat) (space : Nat)
  | planLine (group : List String)
  | confirmPrompt (answer : String)
  | mergeCancelled
  | skippedGroupMissingRep (rep : String) (group : List String)
  | mergingGroup (group : List String) (rep : String)
  | conflictSkipped (folder : String) (item : String)
  | movedItem (folder : String) (item : String) (rep : String)
  | removedFolder (folder : String)
  | cleanupFailed (folder : String)
  | folderMissing (folder : String)
  | mergeDone
deriving DecidableEq

/-- The events that mutate the filesystem: os.remove, shutil.move, os.rmdir. -/
def Event.isMutation : Event → Bool
  | .deletedFile _ => true
  | .movedItem _ _ _ => true
  | .removedFolder _ => true
  | _ => false

def Event.isConfirm : Event → Bool
  | .confirmPrompt _ => true
  | _ => false

def isNotConfirm (e : Event) : Bool := !e.isConfirm

def isNotMutation (e : Event) : Bool := !e.isMutation

/-- A cluster with exactly one member. -/
def isSingleton (g : List String) : Bool := g.length == 1

/-! ### Dedup model (deduplicate_contracts.py)

A file record carries the observations the script makes: the entry name,
whether it is a regular file, the stat modification time and size, the content
identity (none models a file whose bytes cannot be read, in which case
calculate_file_hash returns the failure marker), and whether os.remove would
succeed on it. -/

structure SFile where
  name : String
  isFile : Bool
  mtime : ℚ
  size : Nat
  content : Option Nat
  removeOk : Bool
deriving DecidableEq

/-- The MD5 content hash: equal exactly for byte-identical content, failing
exactly when the bytes cannot be read. -/
def calculate_file_hash (f : SFile) : Option Nat := f.content

/-- The iterdir loop filter: regular files whose name does not start with a dot. -/
def scannedFiles (files : List SFile) : List SFile :=
  files.filter (fun f => f.isFile && !startsWithDot f.name)

/-- file_hashes.setdefault(file_hash, []).append((file, mod_time)). -/
def addToGroups : List (Nat × List SFile) → Nat → SFile → List (Nat × List SFile)
  | [], h, f => [(h, [f])]
  | (k, l) :: rest, h, f =>
    if k = h then (k, l ++ [f]) :: rest else (k, l) :: addToGroups rest h f

def hashStep (gs : List (Nat × List SFile)) (f : SFile) : List (Nat × List SFile) :=
  match calculate_file_hash f with
  | none => gs
  | some h => addToGroups gs h f

/-- The hash-grouping pass of deduplicate_folder, in scan order. -/
def buildGroups (files : List SFile) : List (Nat × List SFile) :=
  (scannedFiles files).foldl hashStep []

def lookupG (h : Nat) : List (Nat × List SFile) → List SFile
  | [] => []
  | (k, l) :: rest => if k = h then l else lookupG h rest

def keysG (gs : List (Nat × List SFile)) : List Nat := gs.map Prod.fst

def readErrorEvents (files : List SFile) : List Event :=
  (scannedFiles files).filterMap
    (fun f => if f.content.isNone then some (Event.errorReading f.name) else none)

def readErrorCount (files : List SFile) : Nat :=
  ((scannedFiles files).filter (fun f => f.content.isNone)).length

/-- Comparator of the in-place sort by modification time, newest first. -/
def mtimeGe (a b : SFile) : Bool := decide (b.mtime ≤ a.mtime)

def sortGroupDesc (g : List SFile) : List SFile := sortLe mtimeGe g

/-- The per-group keep/delete plan: for a group of at least two members, keep
the head of the descending sort and select the rest for deletion. -/
def resolvePlan (g : List SFile) : Option (SFile × List SFile) :=
  if 1 < g.length then
    match sortGroupDesc g with
    | [] => none
    | k :: rest => some (k, rest)
  else none

def deleteEvents (rest : List SFile) : List Event :=
  rest.map (fun f => if f.removeOk then Event.deletedFile f.name else Event.errorDeleting f.name)

def deletedOf (rest : List SFile) : List SFile := rest.filter (fun f => f.removeOk)

def groupEvents (h : Nat) (g : List SFile) : List Event :=
  match resolvePlan g with
  | none => []
  | some (k, rest) => Event.groupHeader h k.name :: deleteEvents rest

def groupDeleted (g : List SFile) : List SFile :=
  match resolvePlan g with
  | none => []
  | some kr => deletedOf kr.2

structure DedupRun where
  groups : List (Nat × List SFile)
  deleted : List SFile
  removed : Nat
  space : Nat
  trace : List Event
deriving DecidableEq

/-- Model of deduplicate_folder on the listing of the target directory: scan
and hash, group by hash, then for each group of two or more delete all but the
most recently modified member, and finally print a summary holding the count
of removed files and the bytes freed (and nothing else). -/
def deduplicate_folder (files : List SFile) : DedupRun :=
  let gs := buildGroups files
  let del := (gs.map (fun p => groupDeleted p.2)).flatten
  let removed := del.length
  let space := (del.map (fun f => f.size)).sum
  { groups := gs
    deleted := del
    removed := removed
    space := space
    trace := readErrorEvents files
      ++ (gs.map (fun p => groupEvents p.1 p.2)).flatten
      ++ [Event.dedupSummary removed space] }

/-- Concrete file records used by the witnesses. -/
def wfa : SFile :=
  { name := "a", isFile := true, mtime := 1, size := 10, content := some 7, removeOk := true }

def wfb : SFile :=
  { name := "b", isFile := true, mtime := 2, size := 20, content := some 7, removeOk := true }

def wfh : SFile :=
  { name := ".hidden", isFile := true, mtime := 3, size := 5, content := some 7, removeOk := true }

def wfe : SFile :=
  { name := "e", isFile := true, mtime := 4, size := 8, content := none, removeOk := true }

/-! ### Merge model (merge_customer_folders.py)

The root directory is a listing of folders; each folder directly contains
entries (files or whole subtrees) identified by name, with an opaque content
identity so that being left unchanged is expressible. -/

structure Entry where
  name : String
  content : Nat
deriving DecidableEq

structure Folder where
  name : String
  items : List Entry
deriving DecidableEq

abbrev MFS := List Folder

def hasDir (fs : MFS) (n : String) : Bool := fs.any (fun d => d.name = n)

def getItems : MFS → String → List Entry
  | [], _ => []
  | d :: ds, n => if d.name = n then d.items else getItems ds n

def updateItems : MFS → String → (List Entry → List Entry) → MFS
  | [], _, _ => []
  | d :: ds, n, f =>
    if d.name = n then { d with items := f d.items } :: ds else d :: updateItems ds n f

def removeDir : MFS → String → MFS
  | [], _ => []
  | d :: ds, n => if d.name = n then ds else d :: removeDir ds n

def hasItem (its : List Entry) (n : String) : Bool := its.any (fun e => e.name = n)

/-- The inner move loop of merge_directories over the os.listdir snapshot of
one source folder: an entry whose name already exists at the representative is
skipped with a conflict warning, otherwise shutil.move removes it from the
source folder and adds it under the representative. -/
def moveChildren (rep folder : String) : List Entry → MFS → MFS × List Event
  | [], fs => (fs, [])
  | e :: rest, fs =>
    if hasItem (getItems fs rep) e.name then
      let p := moveChildren rep folder rest fs
      (p.1, Event.conflictSkipped folder e.name :: p.2)
    else
      let fs1 := updateItems fs folder (fun its => its.eraseP (fun x => decide (x.name = e.name)))
      let fs2 := updateItems fs1 rep (fun its => its ++ [e])
      let p := moveChildren rep folder rest fs2
      (p.1, Event.movedItem folder e.name rep :: p.2)

/-- Processing of one source folder: move its children, then os.rmdir, which
succeeds exactly when the folder has become empty. -/
def processFolder (rep folder : String) (fs : MFS) : MFS × List Event :=
  if hasDir fs folder then
    let p := moveChildren rep folder (getItems fs folder) fs
    if (getItems p.1 folder).isEmpty then
      (removeDir p.1 folder, p.2 ++ [Event.removedFolder folder])
    else (p.1, p.2 ++ [Event.cleanupFailed folder])
  else (fs, [Event.folderMissing folder])

def groupStep (rep : String) (p : MFS × List Event) (folder : String) : MFS × List Event :=
  if folder = rep then p
  else
    let q := processFolder rep folder p.1
    (q.1, p.2 ++ q.2)

/-- Processing of one cluster: only clusters of two or more names act; the
representative is the alphabetically first name; a missing representative
skips the whole cluster. -/
def processGroup (fs : MFS) (group : List String) : MFS × List Event :=
  if 1 < group.length then
    let gsorted := sortStrings group
    let rep := gsorted.headD ""
    if hasDir fs rep then
      gsorted.foldl (groupStep rep) (fs, [Event.mergingGroup gsorted rep])
    else (fs, [Event.skippedGroupMissingRep rep group])
  else (fs, [])

def mergeStep (p : MFS × List Event) (g : List String) : MFS × List Event :=
  let q := processGroup p.1 g
  (q.1, p.2 ++ q.2)

def merge_directories (fs : MFS) (groups : List (List String)) : MFS × List Event :=
  groups.foldl mergeStep (fs, [])

/-- The merge-suggestion lines printed before the prompt, one per actionable
cluster. -/
def planEvents (groups : List (List String)) : List Event :=
  groups.filterMap
    (fun g => if 1 < g.length then some (Event.planLine (sortStrings g)) else none)

/-- Model of main of merge_customer_folders: list customer directories, cluster
with the default threshold 80, print the suggestions, prompt, and merge only
when the stripped lowercased answer is the single letter y. -/
def mergeMain (score : String → String → ℚ) (fs : MFS) (answer : String) : MFS × List Event :=
  let customers := fs.map Folder.name
  let groups := fuzzy_group score customers 80
  let plan := planEvents groups
  if pyLower (pyStrip answer) = "y" then
    let p := merge_directories fs groups
    (p.1, plan ++ [Event.confirmPrompt answer] ++ p.2 ++ [Event.mergeDone])
  else
    (fs, plan ++ [Event.confirmPrompt answer, Event.mergeCancelled])

/-- Concrete directory trees used by the witnesses: a representative holding
one file f, and a source folder holding a conflicting f and a fresh g. -/
def wfs : MFS :=
  [ { name := "Acme", items := [{ name := "f", content := 1 }] },
    { name := "Acme2", items := [{ name := "f", content := 2 }, { name := "g", content := 3 }] } ]

/-- A root with only folder B, so that the representative A of the cluster
containing A and B is missing. -/
def wfsB : MFS := [{ name := "B", items := [] }]

/-! ### Size formatting (format_size, identical in both scripts)

The while loop divides by 1024.0 at most three times; division of these
magnitudes by 1024 is exact in binary floating point, so exact rational
arithmetic models it; the format spec .1f rounds half to even at one decimal. -/

def sizeNames : List String := ["B", "KB", "MB", "GB"]

def sizeLoop (x : ℚ) (i : Nat) : ℚ × Nat :=
  if h : 1024 ≤ x ∧ i < 3 then sizeLoop (x / 1024) (i + 1) else (x, i)
termination_by 3 - i
decreasing_by omega

def roundHalfEven (q : ℚ) : Int :=
  let f : Int := ⌊q⌋
  let r : ℚ := q - f
  if r < 1 / 2 then f
  else if 1 / 2 < r then f + 1
  else if f % 2 = 0 then f else f + 1

def fmt1 (x : ℚ) : String :=
  let n := roundHalfEven (10 * x)
  toString (n / 10) ++ "." ++ toString (n % 10)

def format_size (n : Nat) : String :=
  if n = 0 then "0 B"
  else
    let p := sizeLoop (n : ℚ) 0
    fmt1 p.1 ++ " " ++ sizeNames.getD p.2 ""

/-! ## Sorting lemmas -/

theorem insertLe_perm (le : α → α → Bool) (a : α) (l : List α) :
    (insertLe le a l).Perm (a :: l) := by
  induction l with
  | nil => exact List.Perm.refl _
  | cons b bs ih =>
    unfold insertLe
    by_cases h : le a b = true
    · simp [h]
    · simp only [h, if_false]
      exact (ih.cons b).trans (List.Perm.swap a b bs)

theorem sortLe_perm (le : α → α → Bool) (l : List α) : (sortLe le l).Perm l := by
  induction l with
  | nil => exact List.Perm.refl _
  | cons a l ih => exact (insertLe_perm le a (sortLe le l)).trans (ih.cons a)

theorem pairwise_insertLe (le : α → α → Bool)
    (htrans : ∀ a b c, le a b = true → le b c = true → le a c = true)
    (htot : ∀ a b, le a b = true ∨ le b a = true) (a : α) (l : List α)
    (h : l.Pairwise (fun x y => le x y = true)) :
    (insertLe le a l).Pairwise (fun x y => le x y = true) := by
  induction l with
  | nil => simp [insertLe]
  | cons b bs ih =>
    rcases List.pairwise_cons.mp h with ⟨hb, hbs⟩
    unfold insertLe
    by_cases hab : le a b = true
    · simp only [hab, if_true]
      refine List.pairwise_cons.mpr ⟨?_, h⟩
      intro x hx
      rcases List.mem_cons.mp hx with hx | hx
      · exact hx ▸ hab
      · exact htrans a b x hab (hb x hx)
    · have hba : le b a = true := (htot a b).resolve_left hab
      simp only [hab, if_false]
      refine List.pairwise_cons.mpr ⟨?_, ih hbs⟩
      intro x hx
      rcases List.mem_cons.mp ((insertLe_perm le a bs).mem_iff.mp hx) with hx | hx
      · exact hx ▸ hba
      · exact hb x hx

theorem pairwise_sortLe (le : α → α → Bool)
    (htrans : ∀ a b c, le a b = true → le b c = true → le a c = true)
    (htot : ∀ a b, le a b = true ∨ le b a = true) (l : List α) :
    (sortLe le l).Pairwise (fun x y => le x y = true) := by
  induction l with
  | nil => simp [sortLe]
  | cons a l ih => exact pairwise_insertLe le htrans htot a (sortLe le l) ih

theorem mtimeGe_trans (a b c : SFile) :
    mtimeGe a b = true → mtimeGe b c = true → mtimeGe a c = true := by
  simp only [mtimeGe, decide_eq_true_eq]
  intro h1 h2
  exact le_trans h2 h1

theorem mtimeGe_total (a b : SFile) : mtimeGe a b = true ∨ mtimeGe b a = true := by
  simp only [mtimeGe, decide_eq_true_eq]
  exact le_total b.mtime a.mtime

theorem charsLe_total (a b : List Char) : charsLe a b = true ∨ charsLe b a = true := by
  induction a generalizing b with
  | nil => left; rfl
  | cons x xs ih =>
    cases b with
    | nil => right; rfl
    | cons y ys =>
      simp only [charsLe]
      rcases Nat.lt_trichotomy x.toNat y.toNat with h | h | h
      · left; simp [h]
      · have hxy : ¬ x.toNat < y.toNat := by omega
        have hyx : ¬ y.toNat < x.toNat := by omega
        simpa [hxy, hyx] using ih ys
      · right; simp [h]

theorem charsLe_trans (a b c : List Char) :
    charsLe a b = true → charsLe b c = true → charsLe a c = true := by
  induction a generalizing b c with
  | nil => intro _ _; rfl
  | cons x xs ih =>
    cases b with
    | nil => intro h; exact absurd h (by simp [charsLe])
    | cons y ys =>
      cases c with
      | nil => intro _ h; exact absurd h (by simp [charsLe])
      | cons z zs =>
        intro h1 h2
        simp only [charsLe] at h1 h2 ⊢
        rcases Nat.lt_trichotomy x.toNat y.toNat with hxy | hxy | hxy
        · rcases Nat.lt_trichotomy y.toNat z.toNat with hyz | hyz | hyz
          · simp [show x.toNat < z.toNat by omega]
          · simp [show x.toNat < z.toNat by omega]
          · rw [if_neg (by omega), if_pos (by omega)] at h2
            exact absurd h2 (by simp)
        · rw [if_neg (by omega), if_neg (by omega)] at h1
          rcases Nat.lt_trichotomy y.toNat z.toNat with hyz | hyz | hyz
          · simp [show x.toNat < z.toNat by omega]
          · rw [if_neg (by omega), if_neg (by omega)] at h2
            rw [if_neg (by omega), if_neg (by omega)]
            exact ih ys zs h1 h2
          · rw [if_neg (by omega), if_pos (by omega)] at h2
            exact absurd h2 (by simp)
        · rw [if_neg (by omega), if_pos (by omega)] at h1
          exact absurd h1 (by simp)

theorem strLe_trans (a b c : String) :
    strLe a b = true → strLe b c = true → strLe a c = true :=
  charsLe_trans a.data b.data c.data

theorem strLe_total (a b : String) : strLe a b = true ∨ strLe b a = true :=
  charsLe_total a.data b.data

/-! ## Claim C9: size formatting -/

/-- Claim C9: size formatting uses binary base-1024 magnitudes with one decimal
place; in particular 0 bytes formats as 0 B, 1536 bytes as 1.5 KB, and
1073741824 bytes as 1.0 GB. -/
theorem format_size_values :
    format_size 0 = "0 B" ∧ format_size 1536 = "1.5 KB"
      ∧ format_size 1073741824 = "1.0 GB" := by
  refine ⟨rfl, ?_, ?_⟩
  · rw [format_size]
    norm_num
    rw [sizeLoop]
    norm_num
    rw [sizeLoop]
    norm_num [fmt1, roundHalfEven, sizeNames]
    rfl
  · rw [format_size]
    norm_num
    rw [sizeLoop]
    norm_num
    rw [sizeLoop]
    norm_num
    rw [sizeLoop]
    norm_num
    rw [sizeLoop]
    norm_num [fmt1, roundHalfEven, sizeNames]
    rfl

/-! ## Claim C5: normalization idempotence -/

theorem dropWhile_dropWhile (p : α → Bool) (l : List α) :
    List.dropWhile p (List.dropWhile p l) = List.dropWhile p l := by
  induction l with
  | nil => rfl
  | cons a l ih =>
    by_cases h : p a
    · simp [List.dropWhile_cons, h, ih]
    · simp [List.dropWhile_cons, h]

theorem dropWhile_head_false (p : α → Bool) (l : List α) (c : α) (cs : List α)
    (h : List.dropWhile p l = c :: cs) : p c = false := by
  induction l with
  | nil => simp at h
  | cons a l ih =>
    rw [List.dropWhile_cons] at h
    by_cases hp : p a = true
    · rw [if_pos hp] at h; exact ih h
    · rw [if_neg hp] at h
      injection h with h1 h2
      rw [← h1]
      simpa using hp

theorem pyStripChars_idem (l : List Char) :
    pyStripChars (pyStripChars l) = pyStripChars l := by
  have hSd : (((l.dropWhile pyIsSpace).reverse.dropWhile pyIsSpace).reverse).dropWhile pyIsSpace
      = ((l.dropWhile pyIsSpace).reverse.dropWhile pyIsSpace).reverse := by
    cases hcase : ((l.dropWhile pyIsSpace).reverse.dropWhile pyIsSpace).reverse with
    | nil => rfl
    | cons c cs =>
      have hpre : ((l.dropWhile pyIsSpace).reverse.dropWhile pyIsSpace).reverse
          <+: l.dropWhile pyIsSpace := by
        rw [← List.reverse_suffix, List.reverse_reverse]
        exact List.dropWhile_suffix pyIsSpace
      rcases hpre with ⟨t, ht⟩
      rw [hcase] at ht
      have hform : l.dropWhile pyIsSpace = c :: (cs ++ t) := by
        rw [← ht]; rfl
      have hdd : (l.dropWhile pyIsSpace).dropWhile pyIsSpace = l.dropWhile pyIsSpace :=
        dropWhile_dropWhile pyIsSpace l
      rw [hform] at hdd
      have hpc : pyIsSpace c = false := dropWhile_head_false pyIsSpace _ c (cs ++ t) hdd
      rw [List.dropWhile_cons, hpc]
      simp
  unfold pyStripChars
  rw [hSd, List.reverse_reverse, dropWhile_dropWhile]

theorem pyStrip_idem (s : String) : pyStrip (pyStrip s) = pyStrip s := by
  unfold pyStrip
  have hdata : ((pyStripChars s.data).asString).data = pyStripChars s.data := rfl
  rw [hdata, pyStripChars_idem]

theorem pyStrip_normalize (x : String) :
    pyStrip (normalize_filename x) = normalize_filename x := by
  unfold normalize_filename
  exact pyStrip_idem _

/-- Counterexample for claim C5: normalization is not idempotent, because the
stem is recomputed on the already-normalized name, so each application can
strip a further dotted segment (and a newly exposed copy suffix). On a.b.c one
application yields a.b and a second yields a. -/
theorem normalize_not_idempotent :
    normalize_filename (normalize_filename "a.b.c") ≠ normalize_filename "a.b.c" := by
  decide

/-- Claim C5, amended: normalization is idempotent on every input whose
normalized form is left unchanged by stem extraction and by the two
suffix-removal patterns; in general a second application can strip further. -/
theorem normalize_idempotent_of_stable (x : String)
    (h1 : pyStem (normalize_filename x) = normalize_filename x)
    (h2 : removeCopySuffix (normalize_filename x) = normalize_filename x)
    (h3 : removeParenSuffix (normalize_filename x) = normalize_filename x) :
    normalize_filename (normalize_filename x) = normalize_filename x := by
  conv_lhs => rw [normalize_filename, h1, h2, h3]
  exact pyStrip_normalize x

/-- Witness for the amended claim C5 at the concrete input hello.txt. -/
theorem normalize_idempotent_witness :
    normalize_filename (normalize_filename "hello.txt") = normalize_filename "hello.txt" :=
  normalize_idempotent_of_stable "hello.txt" (by decide) (by decide) (by decide)

/-! ## Claim C4: the clustering loop refines its specification -/

theorem findIdx?_offset (p : α → Bool) (l : List α) (i : Nat) :
    List.findIdx? p l i = (List.findIdx? p l 0).map (fun j => j + i) := by
  induction l generalizing i with
  | nil => rfl
  | cons a l ih =>
    rw [List.findIdx?_cons, List.findIdx?_cons]
    by_cases h : p a = true
    · simp [h]
    · rw [if_neg h, if_neg h, ih (i + 1), ih 1, Option.map_map]
      congr 1
      funext j
      simp only [Function.comp_apply]
      omega

theorem tryJoin_eq_findIdx (score : String → String → ℚ) (t : ℚ) (name : String)
    (gs : List (List String)) :
    tryJoin score t name gs
      = (gs.findIdx? (fun g => decide (t ≤ score name (g.headD "")))).map
          (fun i => gs.modify (fun g => g ++ [name]) i) := by
  induction gs with
  | nil => rfl
  | cons g rest ih =>
    rw [List.findIdx?_cons]
    by_cases h : t ≤ score name (g.headD "")
    · rw [if_pos (decide_eq_true h)]
      simp only [tryJoin, if_pos h]
      rw [Option.map_some', List.modify_zero_cons]
    · rw [if_neg (by rw [decide_eq_false h]; simp)]
      rw [findIdx?_offset _ rest 1]
      simp only [tryJoin, if_neg h]
      rw [ih, Option.map_map]
      cases hfi : rest.findIdx? (fun g => decide (t ≤ score name (g.headD ""))) with
      | none => rfl
      | some i =>
        simp only [Option.map_some', Function.comp_apply, List.modify_succ_cons]

theorem fuzzyInsert_eq_spec (score : String → String → ℚ) (t : ℚ)
    (gs : List (List String)) (name : String) :
    fuzzyInsert score t gs name = fuzzyGroupSpecInsert score t gs name := by
  unfold fuzzyInsert fuzzyGroupSpecInsert
  rw [tryJoin_eq_findIdx]
  cases hfi : gs.findIdx? (fun g => decide (t ≤ score name (g.headD ""))) with
  | none => rfl
  | some i => rfl

/-- Claim C4: the clustering loop of fuzzy_group iterates the input once in
order; each string is compared only against the first-inserted element of each
existing cluster, joins the first cluster whose first element scores at least
the threshold, and otherwise starts a new singleton cluster; formally the
source loop computes exactly the spec-level fold. -/
theorem fuzzy_group_refines_spec (score : String → String → ℚ)
    (names : List String) (threshold : ℚ) :
    fuzzy_group score names threshold = fuzzyGroupSpec score names threshold := by
  unfold fuzzy_group fuzzyGroupSpec
  suffices h : ∀ acc : List (List String),
      names.foldl (fuzzyInsert score threshold) acc
        = names.foldl (fuzzyGroupSpecInsert score threshold) acc from h []
  induction names with
  | nil => intro acc; rfl
  | cons n rest ih =>
    intro acc
    rw [List.foldl_cons, List.foldl_cons, fuzzyInsert_eq_spec]
    exact ih _

/-! ## Claim C8: threshold 100 on distinct strings gives singletons -/

theorem score0_inj : ∀ a b : String, (100 : ℚ) ≤ score0 a b → a = b := by
  intro a b h
  by_cases hab : a = b
  · exact hab
  · rw [score0] at h
    rw [if_neg hab] at h
    norm_num at h

theorem tryJoin_singletons_none (score : String → String → ℚ)
    (hsc : ∀ a b, (100 : ℚ) ≤ score a b → a = b) (n : String) :
    ∀ ps : List String, n ∉ ps →
      tryJoin score 100 n (ps.map (fun a => [a])) = none := by
  intro ps
  induction ps with
  | nil => intro _; rfl
  | cons p ps ih =>
    intro hn
    have hnp : ¬ (100 : ℚ) ≤ score n p := by
      intro hle
      exact hn (by rw [hsc n p hle]; exact List.mem_cons_self p ps)
    simp only [List.map_cons, tryJoin, List.headD_cons, if_neg hnp]
    rw [ih (fun hmem => hn (List.mem_cons_of_mem p hmem))]

theorem fuzzy100_map_singletons (score : String → String → ℚ)
    (hsc : ∀ a b, (100 : ℚ) ≤ score a b → a = b) :
    ∀ (names processed : List String), (processed ++ names).Nodup →
      names.foldl (fuzzyInsert score 100) (processed.map (fun a => [a]))
        = (processed ++ names).map (fun a => [a]) := by
  intro names
  induction names with
  | nil => intro processed _; simp
  | cons n rest ih =>
    intro processed hnd
    have hn : n ∉ processed := by
      rcases (List.nodup_append.mp hnd) with ⟨_, _, hdisj⟩
      intro hmem
      exact hdisj hmem (List.mem_cons_self n rest)
    rw [List.foldl_cons]
    have hins : fuzzyInsert score 100 (processed.map (fun a => [a])) n
        = (processed ++ [n]).map (fun a => [a]) := by
      unfold fuzzyInsert
      rw [tryJoin_singletons_none score hsc n processed hn]
      simp
    rw [hins]
    have hperm : processed ++ [n] ++ rest = processed ++ n :: rest := by
      simp
    have := ih (processed ++ [n]) (by rw [hperm]; exact hnd)
    rw [hperm] at this
    exact this

/-- Claim C8: on a nonempty list of pairwise-distinct strings, clustering at
threshold 100 with a scorer that reaches 100 only on identical strings (the
property of the edit-distance ratio) produces only singleton clusters. -/
theorem fuzzy_threshold100_singletons (score : String → String → ℚ)
    (hsc : ∀ a b, (100 : ℚ) ≤ score a b → a = b)
    (names : List String) (hne : names ≠ []) (hnd : names.Nodup) :
    (fuzzy_group score names 100).all isSingleton = true := by
  have hmap : fuzzy_group score names 100 = names.map (fun a => [a]) := by
    unfold fuzzy_group
    have := fuzzy100_map_singletons score hsc names [] (by simpa using hnd)
    simpa using this
  rw [hmap, List.all_eq_true]
  intro g hg
  rcases List.mem_map.mp hg with ⟨a, _, rfl⟩
  rfl

/-- Witness for claim C8 at a concrete scorer and list. -/
theorem fuzzy_threshold100_singletons_witness :
    (fuzzy_group score0 ["Acme", "Globex"] 100).all isSingleton = true :=
  fuzzy_threshold100_singletons score0 score0_inj ["Acme", "Globex"]
    (by decide) (by decide)

/-! ## Dedup lemmas: the hash groups are exactly the scan-order filters -/

theorem lookupG_addToGroups (gs : List (Nat × List SFile)) (k h : Nat) (f : SFile) :
    lookupG k (addToGroups gs h f)
      = if k = h then lookupG k gs ++ [f] else lookupG k gs := by
  induction gs with
  | nil =>
    by_cases hk : k = h
    · subst hk; simp [addToGroups, lookupG]
    · have hk2 : ¬ h = k := fun h2 => hk h2.symm
      simp [addToGroups, lookupG, hk, hk2]
  | cons p rest ih =>
    obtain ⟨k2, l⟩ := p
    by_cases h2 : k2 = h
    · subst h2
      by_cases hk : k = k2
      · subst hk; simp [addToGroups, lookupG]
      · have hk2 : ¬ k2 = k := fun h3 => hk h3.symm
        simp [addToGroups, lookupG, hk, hk2]
    · by_cases hk : k2 = k
      · subst hk
        simp [addToGroups, lookupG, h2]
      · simp [addToGroups, lookupG, h2, hk, ih]

theorem lookupG_foldl_hashStep (fs : List SFile) :
    ∀ (acc : List (Nat × List SFile)) (k : Nat),
      lookupG k (fs.foldl hashStep acc)
        = lookupG k acc ++ fs.filter (fun f => decide (calculate_file_hash f = some k)) := by
  induction fs with
  | nil => intro acc k; simp
  | cons f fs ih =>
    intro acc k
    rw [List.foldl_cons, List.filter_cons]
    cases hc : calculate_file_hash f with
    | none =>
      have hstep : hashStep acc f = acc := by unfold hashStep; rw [hc]
      rw [hstep, if_neg (by simp), ih]
    | some h2 =>
      have hstep : hashStep acc f = addToGroups acc h2 f := by unfold hashStep; rw [hc]
      rw [hstep, ih, lookupG_addToGroups]
      by_cases hk : k = h2
      · subst hk
        rw [if_pos rfl, if_pos (by simp)]
        simp
      · have hk2 : ¬ h2 = k := fun h3 => hk h3.symm
        rw [if_neg hk, if_neg (by simp [hk2])]

theorem lookupG_buildGroups (files : List SFile) (k : Nat) :
    lookupG k (buildGroups files)
      = (scannedFiles files).filter (fun f => decide (calculate_file_hash f = some k)) := by
  unfold buildGroups
  rw [lookupG_foldl_hashStep]
  rfl

theorem keysG_addToGroups (gs : List (Nat × List SFile)) (h : Nat) (f : SFile) :
    keysG (addToGroups gs h f)
      = if h ∈ keysG gs then keysG gs else keysG gs ++ [h] := by
  induction gs with
  | nil => simp [addToGroups, keysG]
  | cons p rest ih =>
    obtain ⟨k2, l⟩ := p
    by_cases h2 : k2 = h
    · subst h2; simp [addToGroups, keysG]
    · have hne : ¬ h = k2 := fun h3 => h2 h3.symm
      simp only [keysG] at ih ⊢
      simp only [addToGroups, if_neg h2, List.map_cons]
      rw [ih]
      by_cases hmem : h ∈ List.map Prod.fst rest
      · rw [if_pos hmem, if_pos (List.mem_cons.mpr (Or.inr hmem))]
      · have hnot : h ∉ k2 :: List.map Prod.fst rest := by
          intro hmem2
          rcases List.mem_cons.mp hmem2 with h3 | h3
          · exact hne h3
          · exact hmem h3
        rw [if_neg hmem, if_neg hnot]
        simp

theorem nodup_keysG_addToGroups (gs : List (Nat × List SFile)) (h : Nat) (f : SFile)
    (hnd : (keysG gs).Nodup) : (keysG (addToGroups gs h f)).Nodup := by
  rw [keysG_addToGroups]
  by_cases hmem : h ∈ keysG gs
  · rw [if_pos hmem]; exact hnd
  · rw [if_neg hmem]
    exact ((List.perm_append_singleton h (keysG gs)).symm).nodup
      (List.nodup_cons.mpr ⟨hmem, hnd⟩)

theorem nodup_keysG_foldl (fs : List SFile) :
    ∀ acc : List (Nat × List SFile), (keysG acc).Nodup →
      (keysG (fs.foldl hashStep acc)).Nodup := by
  induction fs with
  | nil => intro acc hacc; exact hacc
  | cons f fs ih =>
    intro acc hacc
    rw [List.foldl_cons]
    apply ih
    unfold hashStep
    cases hc : calculate_file_hash f with
    | none => exact hacc
    | some h2 => exact nodup_keysG_addToGroups acc h2 f hacc

theorem nodup_keysG_buildGroups (files : List SFile) :
    (keysG (buildGroups files)).Nodup :=
  nodup_keysG_foldl (scannedFiles files) [] (by simp [keysG])

theorem lookupG_of_mem (gs : List (Nat × List SFile)) (h : Nat) (g : List SFile)
    (hnd : (keysG gs).Nodup) (hmem : (h, g) ∈ gs) : lookupG h gs = g := by
  induction gs with
  | nil => simp at hmem
  | cons p rest ih =>
    obtain ⟨k2, l⟩ := p
    rcases List.mem_cons.mp hmem with heq | hmem2
    · injection heq with h1 h2
      subst h1; subst h2
      simp [lookupG]
    · have hk : ¬ k2 = h := by
        intro h3
        subst h3
        have hkey : k2 ∈ keysG rest :=
          List.mem_map_of_mem Prod.fst hmem2
        exact (List.nodup_cons.mp hnd).1 hkey
      simp only [lookupG, if_neg hk]
      exact ih (List.nodup_cons.mp hnd).2 hmem2

theorem group_char (files : List SFile) (h : Nat) (g : List SFile)
    (hg : (h, g) ∈ buildGroups files) :
    g = (scannedFiles files).filter (fun f => decide (calculate_file_hash f = some h)) := by
  rw [← lookupG_buildGroups files h]
  exact (lookupG_of_mem (buildGroups files) h g (nodup_keysG_buildGroups files) hg).symm

theorem resolvePlan_eq (g : List SFile) (k : SFile) (rest : List SFile)
    (h : resolvePlan g = some (k, rest)) :
    sortGroupDesc g = k :: rest ∧ 1 < g.length := by
  unfold resolvePlan at h
  by_cases hlen : 1 < g.length
  · rw [if_pos hlen] at h
    cases hsort : sortGroupDesc g with
    | nil => rw [hsort] at h; exact absurd h (by simp)
    | cons k2 r2 =>
      rw [hsort] at h
      injection h with h2
      injection h2 with h3 h4
      subst h3; subst h4
      exact ⟨rfl, hlen⟩
  · rw [if_neg hlen] at h
    exact absurd h (by simp)

theorem groupDeleted_subset (g : List SFile) (x : SFile)
    (hx : x ∈ groupDeleted g) : x ∈ g := by
  unfold groupDeleted at hx
  cases hplan : resolvePlan g with
  | none => rw [hplan] at hx; simp at hx
  | some kr =>
    rw [hplan] at hx
    obtain ⟨k, rest⟩ := kr
    have hrest : x ∈ rest := List.mem_of_mem_filter hx
    have hsort := (resolvePlan_eq g k rest hplan).1
    have hperm := sortLe_perm mtimeGe g
    rw [show sortLe mtimeGe g = sortGroupDesc g from rfl, hsort] at hperm
    exact hperm.mem_iff.mp (List.mem_cons_of_mem k hrest)

theorem mem_deleted (files : List SFile) (x : SFile)
    (hx : x ∈ (deduplicate_folder files).deleted) :
    ∃ h g, (h, g) ∈ buildGroups files ∧ x ∈ g := by
  have hx2 : x ∈ ((buildGroups files).map (fun p => groupDeleted p.2)).flatten := hx
  rcases List.mem_flatten.mp hx2 with ⟨l, hl, hxl⟩
  rcases List.mem_map.mp hl with ⟨p, hp, rfl⟩
  exact ⟨p.1, p.2, hp, groupDeleted_subset p.2 x hxl⟩

/-! ## Claim C1: hash dedup keeps a most recently modified member -/

/-- Claim C1: in every duplicate group of at least two members found by the
dedup run, the kept file has maximal modification time in the group, and its
path never appears in the selected deletion set (paths in one directory are
pairwise distinct, expressed by the Nodup hypothesis on names). -/
theorem dedup_keeps_newest (files : List SFile) (h : Nat) (g : List SFile)
    (k : SFile) (rest : List SFile)
    (hnd : (files.map SFile.name).Nodup)
    (hg : (h, g) ∈ buildGroups files)
    (hplan : resolvePlan g = some (k, rest)) :
    (∀ x ∈ g, x.mtime ≤ k.mtime) ∧ k.name ∉ rest.map SFile.name := by
  obtain ⟨hsort, hlen⟩ := resolvePlan_eq g k rest hplan
  have hperm : (k :: rest).Perm g := by
    have := sortLe_perm mtimeGe g
    rwa [show sortLe mtimeGe g = sortGroupDesc g from rfl, hsort] at this
  have hpair : (k :: rest).Pairwise (fun x y => mtimeGe x y = true) := by
    have := pairwise_sortLe mtimeGe mtimeGe_trans mtimeGe_total g
    rwa [show sortLe mtimeGe g = sortGroupDesc g from rfl, hsort] at this
  constructor
  · intro x hxg
    rcases List.mem_cons.mp (hperm.mem_iff.mpr hxg) with hx | hx
    · subst hx; exact le_refl _
    · have := List.rel_of_pairwise_cons hpair hx
      simpa [mtimeGe] using this
  · have hgsub : g.Sublist (scannedFiles files) := by
      rw [group_char files h g hg]
      exact List.filter_sublist _
    have hscansub : (scannedFiles files).Sublist files := List.filter_sublist _
    have hgnames : (g.map SFile.name).Nodup :=
      ((hgsub.map SFile.name).trans (hscansub.map SFile.name)).nodup hnd
    have hknames : ((k :: rest).map SFile.name).Nodup :=
      ((hperm.map SFile.name).symm).nodup hgnames
    rw [List.map_cons] at hknames
    exact (List.nodup_cons.mp hknames).1

/-- Witness for claim C1 on two byte-identical files, keeping the newer. -/
theorem dedup_keeps_newest_witness :
    wfa.mtime ≤ wfb.mtime ∧ wfb.name ∉ [wfa].map SFile.name :=
  ⟨(dedup_keeps_newest [wfa, wfb] 7 [wfa, wfb] wfb [wfa]
      (by decide) (by decide) (by decide)).1 wfa (by decide),
   (dedup_keeps_newest [wfa, wfb] 7 [wfa, wfb] wfb [wfa]
      (by decide) (by decide) (by decide)).2⟩

/-! ## Claim C10: hidden files are excluded from the dedup scan -/

/-- Claim C10: a file whose name starts with a dot is never scanned for
hashing, never joins any hash group, and is never deleted by the dedup run. -/
theorem hidden_files_excluded (files : List SFile) (f : SFile)
    (hf : f ∈ files) (hdot : startsWithDot f.name = true) :
    f ∉ scannedFiles files
      ∧ (∀ h g, (h, g) ∈ buildGroups files → f ∉ g)
      ∧ f ∉ (deduplicate_folder files).deleted := by
  have h1 : f ∉ scannedFiles files := by
    intro hmem
    have hpred := (List.mem_filter.mp hmem).2
    rw [Bool.and_eq_true] at hpred
    rw [hdot] at hpred
    simp at hpred
  refine ⟨h1, ?_, ?_⟩
  · intro h g hg hfg
    apply h1
    rw [group_char files h g hg] at hfg
    exact List.mem_of_mem_filter hfg
  · intro hdel
    rcases mem_deleted files f hdel with ⟨h, g, hg, hfg⟩
    apply h1
    rw [group_char files h g hg] at hfg
    exact List.mem_of_mem_filter hfg

/-- Witness for claim C10 on a directory with one visible and one hidden file. -/
theorem hidden_files_excluded_witness :
    wfh ∉ scannedFiles [wfa, wfh] ∧ wfh ∉ (deduplicate_folder [wfa, wfh]).deleted :=
  ⟨(hidden_files_excluded [wfa, wfh] wfh (by decide) (by decide)).1,
   (hidden_files_excluded [wfa, wfh] wfh (by decide) (by decide)).2.2⟩

/-! ## Claim C7: unreadable files are skipped and the batch continues -/

/-- Counterexample to the reporting conjunct of claim C7: the final summary of
the dedup run carries only the removed count and the freed bytes, so two runs
with different read-error counts can end in identical final summaries; the
aggregate read-error count is not reported at the end of the run. -/
theorem summary_ignores_read_errors :
    (deduplicate_folder [wfe]).trace.getLast? = (deduplicate_folder []).trace.getLast?
      ∧ readErrorCount [wfe] ≠ readErrorCount [] := by
  exact ⟨by decide, by decide⟩

/-- Claim C7, amended: when hashing a file fails, the hasher returns the
failure marker, the caller skips exactly that file (the groups and the
deletion set are those of the batch without it, and it is never deleted), the
rest of the batch is still processed, and a per-file error line is printed at
failure time; the final summary reports only the removed count and freed
bytes, not the aggregate read-error count. -/
theorem read_error_skipped (xs ys : List SFile) (f : SFile)
    (hf : calculate_file_hash f = none) :
    buildGroups (xs ++ f :: ys) = buildGroups (xs ++ ys)
      ∧ (deduplicate_folder (xs ++ f :: ys)).deleted = (deduplicate_folder (xs ++ ys)).deleted
      ∧ f ∉ (deduplicate_folder (xs ++ f :: ys)).deleted
      ∧ (f.isFile = true → startsWithDot f.name = false →
          Event.errorReading f.name ∈ (deduplicate_folder (xs ++ f :: ys)).trace) := by
  have hgroups : buildGroups (xs ++ f :: ys) = buildGroups (xs ++ ys) := by
    unfold buildGroups scannedFiles
    rw [List.filter_append, List.filter_append, List.filter_cons]
    by_cases hp : (f.isFile && !startsWithDot f.name) = true
    · rw [if_pos hp]
      rw [List.foldl_append, List.foldl_append, List.foldl_cons]
      have : hashStep (List.foldl hashStep [] (List.filter (fun f => f.isFile && !startsWithDot f.name) xs)) f
          = List.foldl hashStep [] (List.filter (fun f => f.isFile && !startsWithDot f.name) xs) := by
        unfold hashStep; rw [hf]
      rw [this]
    · rw [if_neg hp]
  refine ⟨hgroups, ?_, ?_, ?_⟩
  · show ((buildGroups (xs ++ f :: ys)).map (fun p => groupDeleted p.2)).flatten
        = ((buildGroups (xs ++ ys)).map (fun p => groupDeleted p.2)).flatten
    rw [hgroups]
  · intro hdel
    rcases mem_deleted (xs ++ f :: ys) f hdel with ⟨h, g, hg, hfg⟩
    rw [group_char (xs ++ f :: ys) h g hg] at hfg
    have := (List.mem_filter.mp hfg).2
    rw [hf] at this
    simp at this
  · intro hisf hnodot
    have hscan : f ∈ scannedFiles (xs ++ f :: ys) := by
      apply List.mem_filter.mpr
      refine ⟨List.mem_append.mpr (Or.inr (List.mem_cons_self f ys)), ?_⟩
      rw [hisf, hnodot]
      rfl
    have herr : Event.errorReading f.name ∈ readErrorEvents (xs ++ f :: ys) := by
      apply List.mem_filterMap.mpr
      refine ⟨f, hscan, ?_⟩
      have : f.content.isNone = true := by
        have hfc : f.content = none := hf
        rw [hfc]; rfl
      rw [this]
      rfl
    show Event.errorReading f.name ∈
      readErrorEvents (xs ++ f :: ys)
        ++ ((buildGroups (xs ++ f :: ys)).map (fun p => groupEvents p.1 p.2)).flatten
        ++ [Event.dedupSummary (deduplicate_folder (xs ++ f :: ys)).removed
              (deduplicate_folder (xs ++ f :: ys)).space]
    exact List.mem_append.mpr (Or.inl (List.mem_append.mpr (Or.inl herr)))

/-- Witness for the amended claim C7 on a batch of one good and one unreadable
file. -/
theorem read_error_skipped_witness :
    buildGroups [wfa, wfe] = buildGroups [wfa]
      ∧ wfe ∉ (deduplicate_folder [wfa, wfe]).deleted
      ∧ Event.errorReading wfe.name ∈ (deduplicate_folder [wfa, wfe]).trace :=
  ⟨(read_error_skipped [wfa] [] wfe (by decide)).1,
   (read_error_skipped [wfa] [] wfe (by decide)).2.2.1,
   (read_error_skipped [wfa] [] wfe (by decide)).2.2.2 (by decide) (by decide)⟩

/-! ## Claim C2, counterexample side: the bulk delete has no gate -/

/-- Counterexample to claim C2: the dedup bulk delete mutates the filesystem
while its whole trace contains no confirmation prompt at all, so it is a
bulk-delete run that deletes without displaying a plan for confirmation. -/
theorem dedup_mutates_without_confirmation :
    Event.deletedFile "a" ∈ (deduplicate_folder [wfa, wfb]).trace
      ∧ (deduplicate_folder [wfa, wfb]).trace.all isNotConfirm = true := by
  exact ⟨by decide, by decide⟩

/-! ## Merge filesystem lemmas -/

theorem hasDir_cons_of_ne (d : Folder) (ds : MFS) (n : String) (hd : ¬ d.name = n)
    (h : hasDir (d :: ds) n = true) : hasDir ds n = true := by
  simp only [hasDir, List.any_cons, Bool.or_eq_true, decide_eq_true_eq] at h
  rcases h with h | h
  · exact absurd h hd
  · exact h

theorem getItems_updateItems_self (fs : MFS) (n : String) (f : List Entry → List Entry)
    (h : hasDir fs n = true) : getItems (updateItems fs n f) n = f (getItems fs n) := by
  induction fs with
  | nil => simp [hasDir] at h
  | cons d ds ih =>
    by_cases hd : d.name = n
    · simp [updateItems, getItems, hd]
    · simp only [updateItems, if_neg hd, getItems]
      exact ih (hasDir_cons_of_ne d ds n hd h)

theorem getItems_updateItems_ne (fs : MFS) (n m : String) (f : List Entry → List Entry)
    (h : ¬ m = n) : getItems (updateItems fs n f) m = getItems fs m := by
  induction fs with
  | nil => rfl
  | cons d ds ih =>
    by_cases hd : d.name = n
    · have hdm : ¬ d.name = m := by rw [hd]; exact fun h2 => h h2.symm
      simp only [updateItems, if_pos hd, getItems]
      rw [if_neg hdm, if_neg hdm]
    · simp only [updateItems, if_neg hd, getItems]
      by_cases hdm : d.name = m
      · rw [if_pos hdm, if_pos hdm]
      · rw [if_neg hdm, if_neg hdm]
        exact ih

theorem hasDir_updateItems (fs : MFS) (n m : String) (f : List Entry → List Entry) :
    hasDir (updateItems fs n f) m = hasDir fs m := by
  induction fs with
  | nil => rfl
  | cons d ds ih =>
    by_cases hd : d.name = n
    · simp [updateItems, hasDir, hd]
    · simp only [updateItems, if_neg hd, hasDir, List.any_cons]
      rw [show List.any (updateItems ds n f) (fun d => decide (d.name = m))
            = hasDir (updateItems ds n f) m from rfl,
          show List.any ds (fun d => decide (d.name = m)) = hasDir ds m from rfl, ih]

theorem getItems_removeDir_ne (fs : MFS) (n m : String) (h : ¬ m = n) :
    getItems (removeDir fs n) m = getItems fs m := by
  induction fs with
  | nil => rfl
  | cons d ds ih =>
    by_cases hd : d.name = n
    · have hdm : ¬ d.name = m := by rw [hd]; exact fun h2 => h h2.symm
      simp only [removeDir, if_pos hd, getItems, if_neg hdm]
    · simp only [removeDir, if_neg hd, getItems]
      by_cases hdm : d.name = m
      · rw [if_pos hdm, if_pos hdm]
      · rw [if_neg hdm, if_neg hdm]
        exact ih

theorem hasItem_append (a b : List Entry) (n : String) :
    hasItem (a ++ b) n = (hasItem a n || hasItem b n) :=
  List.any_append

theorem hasItem_iff_mem_names (its : List Entry) (n : String) :
    hasItem its n = true ↔ n ∈ its.map Entry.name := by
  unfold hasItem
  rw [List.any_eq_true]
  constructor
  · rintro ⟨e, he, hname⟩
    rw [decide_eq_true_eq] at hname
    exact hname ▸ List.mem_map_of_mem Entry.name he
  · intro hmem
    rcases List.mem_map.mp hmem with ⟨e, he, hname⟩
    exact ⟨e, he, by simp [hname]⟩

theorem eraseP_append_of_not (p : Entry → Bool) (l1 l2 : List Entry)
    (h : ∀ e ∈ l1, p e = false) :
    (l1 ++ l2).eraseP p = l1 ++ l2.eraseP p := by
  induction l1 with
  | nil => rfl
  | cons e l1 ih =>
    rw [List.cons_append, List.eraseP_cons, h e (List.mem_cons_self e l1)]
    rw [List.cons_append, ih (fun x hx => h x (List.mem_cons_of_mem e hx))]
    rfl

/-- Main loop invariant for moveChildren: processing the remaining snapshot es
against a state whose representative currently holds its original entries R0
followed by the already-moved entries, and whose source folder still holds the
already-skipped prefix followed by es. Conflicts are judged against R0 because
the names in es avoid the moved entries. -/
theorem moveChildren_spec (rep folder : String) (hrf : ¬ folder = rep) :
    ∀ (es : List Entry) (fs : MFS) (R0 moved pre : List Entry),
      hasDir fs rep = true →
      hasDir fs folder = true →
      getItems fs rep = R0 ++ moved →
      getItems fs folder = pre ++ es →
      ((pre ++ es).map Entry.name).Nodup →
      (∀ e ∈ es, e.name ∉ moved.map Entry.name) →
      getItems (moveChildren rep folder es fs).1 rep
          = R0 ++ (moved ++ es.filter (fun e => !hasItem R0 e.name))
        ∧ getItems (moveChildren rep folder es fs).1 folder
          = pre ++ es.filter (fun e => hasItem R0 e.name)
        ∧ hasDir (moveChildren rep folder es fs).1 rep = true
        ∧ hasDir (moveChildren rep folder es fs).1 folder = true := by
  intro es
  induction es with
  | nil =>
    intro fs R0 moved pre hr hf hgr hgf _ _
    simp only [moveChildren, List.filter_nil, List.append_nil]
    exact ⟨hgr, by simpa using hgf, hr, hf⟩
  | cons e rest ih =>
    intro fs R0 moved pre hr hf hgr hgf hnd hmv
    have hename : e.name ∉ moved.map Entry.name := hmv e (List.mem_cons_self e rest)
    have hsplit : hasItem (getItems fs rep) e.name = (hasItem R0 e.name || hasItem moved e.name) := by
      rw [hgr]; exact hasItem_append R0 moved e.name
    have hmoved_false : hasItem moved e.name = false := by
      cases hcase : hasItem moved e.name
      · rfl
      · exact absurd ((hasItem_iff_mem_names moved e.name).mp hcase) hename
    by_cases hconf : hasItem R0 e.name = true
    · -- conflict: the entry stays in the source folder
      have hcond : hasItem (getItems fs rep) e.name = true := by
        rw [hsplit, hconf]; rfl
      simp only [moveChildren, hcond, if_true]
      have hgf2 : getItems fs folder = (pre ++ [e]) ++ rest := by
        rw [hgf, List.append_assoc]; rfl
      have hnd2 : (((pre ++ [e]) ++ rest).map Entry.name).Nodup := by
        rw [List.append_assoc]; exact (by simpa using hnd)
      have hrec := ih fs R0 moved (pre ++ [e]) hr hf hgr hgf2 hnd2
        (fun x hx => hmv x (List.mem_cons_of_mem e hx))
      refine ⟨?_, ?_, hrec.2.2.1, hrec.2.2.2⟩
      · rw [hrec.1, List.filter_cons, hconf]
        simp
      · rw [hrec.2.1, List.filter_cons, hconf]
        simp
    · -- no conflict: the entry moves to the representative
      have hconfF : hasItem R0 e.name = false := by
        cases hcase : hasItem R0 e.name
        · rfl
        · exact absurd hcase hconf
      have hcond : hasItem (getItems fs rep) e.name = false := by
        rw [hsplit, hconfF, hmoved_false]; rfl
      simp only [moveChildren, hcond, Bool.false_eq_true, if_false]
      -- the state after the move
      have hpre_pred : ∀ x ∈ pre, (fun x => decide (x.name = e.name)) x = false := by
        intro x hx
        have hnames := hnd
        rw [List.map_append, List.nodup_append] at hnames
        have hdisj := hnames.2.2
        have hxname : x.name ∈ pre.map Entry.name := List.mem_map_of_mem Entry.name hx
        have hene : x.name ≠ e.name := by
          intro heq
          exact hdisj hxname (heq ▸ List.mem_map_of_mem Entry.name (List.mem_cons_self e rest))
        simp [hene]
      have herase : (getItems fs folder).eraseP (fun x => decide (x.name = e.name))
          = pre ++ rest := by
        rw [hgf, eraseP_append_of_not _ pre (e :: rest) hpre_pred, List.eraseP_cons,
          decide_eq_true rfl]
        rfl
      have hfs1_folder :
          getItems (updateItems fs folder (fun its => its.eraseP (fun x => decide (x.name = e.name)))) folder
            = pre ++ rest := by
        rw [getItems_updateItems_self fs folder _ hf, herase]
      have hfs1_rep :
          getItems (updateItems fs folder (fun its => its.eraseP (fun x => decide (x.name = e.name)))) rep
            = R0 ++ moved := by
        rw [getItems_updateItems_ne fs folder rep _ (fun h => hrf h.symm), hgr]
      have hfs2_rep :
          getItems (updateItems (updateItems fs folder (fun its => its.eraseP (fun x => decide (x.name = e.name)))) rep (fun its => its ++ [e])) rep
            = R0 ++ (moved ++ [e]) := by
        rw [getItems_updateItems_self _ rep _ (by rw [hasDir_updateItems]; exact hr), hfs1_rep,
          List.append_assoc]
      have hfs2_folder :
          getItems (updateItems (updateItems fs folder (fun its => its.eraseP (fun x => decide (x.name = e.name)))) rep (fun its => its ++ [e])) folder
            = pre ++ rest := by
        rw [getItems_updateItems_ne _ rep folder _ hrf, hfs1_folder]
      have hnd2 : ((pre ++ rest).map Entry.name).Nodup := by
        have hsub : List.Sublist (pre ++ rest) (pre ++ e :: rest) :=
          List.Sublist.append_left (List.sublist_cons_self e rest) pre
        exact (hsub.map Entry.name).nodup hnd
      have hmv2 : ∀ x ∈ rest, x.name ∉ (moved ++ [e]).map Entry.name := by
        intro x hx hmem
        rw [List.map_append, List.mem_append] at hmem
        rcases hmem with hmem | hmem
        · exact hmv x (List.mem_cons_of_mem e hx) hmem
        · have hxe : x.name = e.name := by simpa using hmem
          have hnames := hnd
          rw [List.map_append] at hnames
          have htail := (List.nodup_append.mp hnames).2.1
          rw [List.map_cons, List.nodup_cons] at htail
          exact htail.1 (hxe ▸ List.mem_map_of_mem Entry.name hx)
      have hrec := ih _ R0 (moved ++ [e]) pre
        (by rw [hasDir_updateItems, hasDir_updateItems]; exact hr)
        (by rw [hasDir_updateItems, hasDir_updateItems]; exact hf)
        hfs2_rep hfs2_folder (by rw [List.map_append] at hnd2 ⊢; exact hnd2) hmv2
      refine ⟨?_, ?_, hrec.2.2.1, hrec.2.2.2⟩
      · rw [hrec.1, List.filter_cons, hconfF]
        simp
      · rw [hrec.2.1, List.filter_cons, hconfF]
        simp

/-! ## Claim C3: conflict-safe moves -/

/-- Claim C3: during the merge of one source folder into the representative,
every child whose name already exists at the representative is skipped: the
representative keeps its original entries unchanged in place (moved items are
only appended, no overwrite and no rename), and, when at least one child was
skipped, the skipped children remain in the source folder, which is then not
removed. -/
theorem merge_skips_conflicts (fs : MFS) (rep folder : String)
    (hne : ¬ folder = rep)
    (hrep : hasDir fs rep = true)
    (hfold : hasDir fs folder = true)
    (hnodup : ((getItems fs folder).map Entry.name).Nodup) :
    getItems (processFolder rep folder fs).1 rep
        = getItems fs rep
            ++ (getItems fs folder).filter (fun e => !hasItem (getItems fs rep) e.name)
      ∧ ((getItems fs folder).filter (fun e => hasItem (getItems fs rep) e.name) ≠ [] →
          getItems (processFolder rep folder fs).1 folder
              = (getItems fs folder).filter (fun e => hasItem (getItems fs rep) e.name)
            ∧ hasDir (processFolder rep folder fs).1 folder = true) := by
  have hspec := moveChildren_spec rep folder hne (getItems fs folder) fs
    (getItems fs rep) [] [] hrep hfold (by simp) (by simp) (by simpa using hnodup)
    (by simp)
  unfold processFolder
  rw [if_pos hfold]
  by_cases hempty : (getItems (moveChildren rep folder (getItems fs folder) fs).1 folder).isEmpty = true
  · -- all children moved; the source folder is removed, and there were no conflicts
    have hconfnil : (getItems fs folder).filter
        (fun e => hasItem (getItems fs rep) e.name) = [] := by
      have h2 := hspec.2.1
      rw [List.nil_append] at h2
      rw [← h2]
      rw [List.isEmpty_iff] at hempty
      exact hempty
    rw [if_pos hempty]
    constructor
    · rw [getItems_removeDir_ne _ folder rep (fun h => hne h.symm)]
      have h1 := hspec.1
      rw [List.nil_append] at h1
      exact h1
    · intro hcontra
      exact absurd hconfnil hcontra
  · rw [if_neg hempty]
    constructor
    · have h1 := hspec.1
      rw [List.nil_append] at h1
      exact h1
    · intro _
      have h2 := hspec.2.1
      rw [List.nil_append] at h2
      exact ⟨h2, hspec.2.2.2⟩

/-- Witness for claim C3: folder Acme2 holds a conflicting f and a fresh g;
after processing, the representative keeps its own f and gains g, the source
keeps exactly the conflicting f, and the source folder is not removed. -/
theorem merge_skips_conflicts_witness :
    getItems (processFolder "Acme" "Acme2" wfs).1 "Acme"
        = [{ name := "f", content := 1 }, { name := "g", content := 3 }]
      ∧ getItems (processFolder "Acme" "Acme2" wfs).1 "Acme2"
        = [{ name := "f", content := 2 }]
      ∧ hasDir (processFolder "Acme" "Acme2" wfs).1 "Acme2" = true := by
  have h := merge_skips_conflicts wfs "Acme" "Acme2" (by decide) (by decide) (by decide)
    (by decide)
  have h2 := h.2 (by decide)
  exact ⟨h.1.trans (by decide), h2.1.trans (by decide), h2.2⟩

/-! ## Claim C6: representative choice and missing-representative skip -/

theorem charsLe_refl (l : List Char) : charsLe l l = true := by
  induction l with
  | nil => rfl
  | cons a as ih => simp [charsLe, ih]

theorem strLe_refl (s : String) : strLe s s = true := charsLe_refl s.data

theorem sortStrings_head_min (group : List String) (x : String) (hx : x ∈ group) :
    strLe ((sortStrings group).headD "") x = true := by
  cases hsort : sortStrings group with
  | nil =>
    have hperm := sortLe_perm strLe group
    rw [show sortLe strLe group = sortStrings group from rfl, hsort] at hperm
    rw [hperm.symm.eq_nil] at hx
    simp at hx
  | cons h t =>
    have hperm : (h :: t).Perm group := by
      have := sortLe_perm strLe group
      rwa [show sortLe strLe group = sortStrings group from rfl, hsort] at this
    have hpair : (h :: t).Pairwise (fun a b => strLe a b = true) := by
      have := pairwise_sortLe strLe strLe_trans strLe_total group
      rwa [show sortLe strLe group = sortStrings group from rfl, hsort] at this
    rw [List.headD_cons]
    rcases List.mem_cons.mp (hperm.mem_iff.mpr hx) with hx2 | hx2
    · subst hx2; exact strLe_refl x
    · exact List.rel_of_pairwise_cons hpair hx2

theorem processGroup_missing (fs : MFS) (group : List String)
    (hlen : 1 < group.length)
    (hmiss : hasDir fs ((sortStrings group).headD "") = false) :
    processGroup fs group
      = (fs, [Event.skippedGroupMissingRep ((sortStrings group).headD "") group]) := by
  have hmiss2 : hasDir fs ((sortStrings group).head?.getD "") = false := by
    rw [← List.headD_eq_head?_getD]
    exact hmiss
  simp only [processGroup]
  rw [if_pos hlen, if_neg (by simp [hmiss2])]

theorem foldl_mergeStep_shift (gs : List (List String)) :
    ∀ (fs : MFS) (evs : List Event),
      (List.foldl mergeStep (fs, evs) gs).1 = (List.foldl mergeStep (fs, []) gs).1
        ∧ (List.foldl mergeStep (fs, evs) gs).2
            = evs ++ (List.foldl mergeStep (fs, []) gs).2 := by
  induction gs with
  | nil => intro fs evs; exact ⟨rfl, by simp⟩
  | cons g gs ih =>
    intro fs evs
    rw [List.foldl_cons, List.foldl_cons]
    have hstep : ∀ e : List Event,
        mergeStep (fs, e) g = ((processGroup fs g).1, e ++ (processGroup fs g).2) :=
      fun e => rfl
    rw [hstep evs, hstep []]
    constructor
    · rw [(ih ((processGroup fs g).1) (evs ++ (processGroup fs g).2)).1,
        (ih ((processGroup fs g).1) ([] ++ (processGroup fs g).2)).1]
    · rw [(ih ((processGroup fs g).1) (evs ++ (processGroup fs g).2)).2,
        (ih ((processGroup fs g).1) ([] ++ (processGroup fs g).2)).2]
      simp

theorem merge_directories_cons (fs : MFS) (g : List String) (gs : List (List String)) :
    merge_directories fs (g :: gs)
      = ((merge_directories (processGroup fs g).1 gs).1,
         (processGroup fs g).2 ++ (merge_directories (processGroup fs g).1 gs).2) := by
  unfold merge_directories
  rw [List.foldl_cons]
  have hstep : mergeStep (fs, ([] : List Event)) g
      = ((processGroup fs g).1, (processGroup fs g).2) := rfl
  rw [hstep]
  have h := foldl_mergeStep_shift gs (processGroup fs g).1 (processGroup fs g).2
  exact Prod.ext h.1 h.2

/-- Claim C6: for every cluster of at least two names the merge executor takes
the alphabetically first name (least in the code-point order used by sorted)
as the representative; when the representative folder does not exist the whole
cluster is skipped with a report, no state changes, and the run continues with
the remaining clusters. -/
theorem merge_rep_first_and_skip_missing (fs : MFS) (group : List String)
    (gs : List (List String)) (hlen : 1 < group.length) :
    group.all (fun x => strLe ((sortStrings group).headD "") x) = true
      ∧ (hasDir fs ((sortStrings group).headD "") = false →
          processGroup fs group
              = (fs, [Event.skippedGroupMissingRep ((sortStrings group).headD "") group])
            ∧ (merge_directories fs (group :: gs)).1 = (merge_directories fs gs).1
            ∧ (merge_directories fs (group :: gs)).2
                = Event.skippedGroupMissingRep ((sortStrings group).headD "") group
                    :: (merge_directories fs gs).2) := by
  constructor
  · rw [List.all_eq_true]
    intro x hx
    exact sortStrings_head_min group x hx
  · intro hmiss
    have hpg := processGroup_missing fs group hlen hmiss
    refine ⟨hpg, ?_, ?_⟩
    · rw [merge_directories_cons, hpg]
    · rw [merge_directories_cons, hpg]
      rfl

/-- Witness for claim C6: the cluster B, A has representative A, which does not
exist in the root holding only B, so the cluster is skipped and the state is
unchanged. -/
theorem merge_rep_first_and_skip_missing_witness :
    ["B", "A"].all (strLe "A") = true
      ∧ processGroup wfsB ["B", "A"] = (wfsB, [Event.skippedGroupMissingRep "A" ["B", "A"]])
      ∧ (merge_directories wfsB [["B", "A"]]).1 = (merge_directories wfsB []).1 := by
  have h := merge_rep_first_and_skip_missing wfsB ["B", "A"] [] (by decide)
  have h2 := h.2 (by decide)
  exact ⟨h.1, h2.1, h2.2.1⟩

/-! ## Claim C2: confirmation gate of the merge run -/

theorem takeWhile_append_all (p : Event → Bool) (l1 l2 : List Event)
    (h : ∀ e ∈ l1, p e = true) :
    List.takeWhile p (l1 ++ l2) = l1 ++ List.takeWhile p l2 := by
  induction l1 with
  | nil => rfl
  | cons e l1 ih =>
    rw [List.cons_append, List.takeWhile_cons, h e (List.mem_cons_self e l1),
      List.cons_append, ih (fun x hx => h x (List.mem_cons_of_mem e hx))]
    simp

theorem planEvents_shape (gs : List (List String)) (e : Event)
    (he : e ∈ planEvents gs) : ∃ g, e = Event.planLine g := by
  rcases List.mem_filterMap.mp he with ⟨g, _, hsome⟩
  by_cases h : 1 < g.length
  · rw [if_pos h] at hsome
    exact ⟨_, (Option.some.inj hsome).symm⟩
  · rw [if_neg h] at hsome
    exact absurd hsome (by simp)

/-- Claim C2, amended for the merge script: the run prints the whole plan, then
issues the confirmation prompt; every trace event before the prompt is a
non-mutation, every actionable cluster appears as a plan line before the
prompt, and when the stripped lowercased answer is not y the whole run
performs no mutation at all. The amendment is needed because the bulk delete
of the dedup script has no such gate. -/
theorem merge_confirmation_gate (score : String → String → ℚ) (fs : MFS)
    (answer : String) :
    ((mergeMain score fs answer).2.takeWhile isNotConfirm).all isNotMutation = true
      ∧ Event.confirmPrompt answer ∈ (mergeMain score fs answer).2
      ∧ (∀ g ∈ fuzzy_group score (fs.map Folder.name) 80, 1 < g.length →
          Event.planLine (sortStrings g)
            ∈ (mergeMain score fs answer).2.takeWhile isNotConfirm)
      ∧ (pyLower (pyStrip answer) ≠ "y" →
          (mergeMain score fs answer).2.all isNotMutation = true) := by
  have hplan_nc : ∀ e ∈ planEvents (fuzzy_group score (fs.map Folder.name) 80),
      isNotConfirm e = true := by
    intro e he
    rcases planEvents_shape _ e he with ⟨g, rfl⟩
    rfl
  have hplan_nm : ∀ e ∈ planEvents (fuzzy_group score (fs.map Folder.name) 80),
      isNotMutation e = true := by
    intro e he
    rcases planEvents_shape _ e he with ⟨g, rfl⟩
    rfl
  have htake : ∀ rest2 : List Event,
      (planEvents (fuzzy_group score (fs.map Folder.name) 80)
          ++ Event.confirmPrompt answer :: rest2).takeWhile isNotConfirm
        = planEvents (fuzzy_group score (fs.map Folder.name) 80) := by
    intro rest2
    rw [takeWhile_append_all _ _ _ hplan_nc, List.takeWhile_cons]
    simp [isNotConfirm, Event.isConfirm]
  have hmemplan : ∀ g ∈ fuzzy_group score (fs.map Folder.name) 80, 1 < g.length →
      Event.planLine (sortStrings g)
        ∈ planEvents (fuzzy_group score (fs.map Folder.name) 80) := by
    intro g hg hglen
    exact List.mem_filterMap.mpr ⟨g, hg, by rw [if_pos hglen]⟩
  by_cases hconf : pyLower (pyStrip answer) = "y"
  · have htr : (mergeMain score fs answer).2
        = planEvents (fuzzy_group score (fs.map Folder.name) 80)
            ++ Event.confirmPrompt answer
              :: ((merge_directories fs (fuzzy_group score (fs.map Folder.name) 80)).2
                  ++ [Event.mergeDone]) := by
      simp only [mergeMain, if_pos hconf]
      simp [List.append_assoc]
    refine ⟨?_, ?_, ?_, ?_⟩
    · rw [htr, htake]
      exact List.all_eq_true.mpr hplan_nm
    · rw [htr]
      exact List.mem_append.mpr (Or.inr (List.mem_cons_self _ _))
    · intro g hg hglen
      rw [htr, htake]
      exact hmemplan g hg hglen
    · intro h
      exact absurd hconf h
  · have htr : (mergeMain score fs answer).2
        = planEvents (fuzzy_group score (fs.map Folder.name) 80)
            ++ Event.confirmPrompt answer :: [Event.mergeCancelled] := by
      simp only [mergeMain, if_neg hconf]
    refine ⟨?_, ?_, ?_, ?_⟩
    · rw [htr, htake]
      exact List.all_eq_true.mpr hplan_nm
    · rw [htr]
      exact List.mem_append.mpr (Or.inr (List.mem_cons_self _ _))
    · intro g hg hglen
      rw [htr, htake]
      exact hmemplan g hg hglen
    · intro _
      rw [htr, List.all_eq_true]
      intro e he
      rcases List.mem_append.mp he with he | he
      · exact hplan_nm e he
      · rcases List.mem_cons.mp he with rfl | he2
        · rfl
        · rcases List.mem_cons.mp he2 with rfl | he3
          · rfl
          · simp at he3

/-- Witness for the amended claim C2 on a run answered with n: nothing before
the prompt mutates, the prompt is issued, and the whole refused run performs
no mutation. -/
theorem merge_confirmation_gate_witness :
    ((mergeMain score0 wfs "n").2.takeWhile isNotConfirm).all isNotMutation = true
      ∧ Event.confirmPrompt "n" ∈ (mergeMain score0 wfs "n").2
      ∧ (mergeMain score0 wfs "n").2.all isNotMutation = true := by
  have h := merge_confirmation_gate score0 wfs "n"
  exact ⟨h.1, h.2.1, h.2.2.2 (by decide)⟩

end GDC
